import Mathlib

/-!
Verification development for the audio transcription script
(`transcribe_audio.py`).  The script is embedded shallowly: the pure
rendering logic becomes Lean functions on `List Char`, and the effectful
parts (`transcribe_audio`, `main`) become functions from explicit oracle
inputs (directory listing, file-existence flags, the behaviour of the
external speech-recognition capability) to an explicit run outcome
(messages printed, capability calls made, report written, uncaught
exception).  Strings are modelled as `List Char`; times as exact
rationals.
-/

set_option maxRecDepth 100000

namespace TranscribeAudio

/-- Allow-listed audio extensions, in the order the script iterates over
them (`audio_extensions = ['.mp3', '.wav', '.m4a', '.flac', '.ogg']`). -/
def audio_extensions : List (List Char) :=
  [".mp3".data, ".wav".data, ".m4a".data, ".flac".data, ".ogg".data]

/-- Whether a single `Path('.').glob(f'*{ext}')` pattern matches a
directory entry name: the name ends with the extension (case-sensitive,
POSIX semantics) and is not a hidden entry (glob skips names starting
with a dot unless the pattern does). -/
def extMatch (ext name : List Char) : Bool :=
  decide (ext <:+ name) && decide (name.head? ≠ some '.')

/-- Embedding of the discovery loop of `main` (lines 70-74): for each
extension in `audio_extensions`, extend the candidate list with the
entries of the (fixed) directory listing matched by that extension's
glob pattern, in listing order. -/
def audioFiles (listing : List (List Char)) : List (List Char) :=
  (audio_extensions.map (fun ext => listing.filter (extMatch ext))).flatten

/-- Whether a name matches at least one allow-listed extension. -/
def matchesAllowList (name : List Char) : Bool :=
  audio_extensions.any (fun ext => extMatch ext name)

/-- Claim-side definition, written from the spec's words (not from the
source), for comparison with `audioFiles`: discovery "returns the
candidates in whatever enumeration order the filesystem collaborator
yields, imposing no sort or reordering of its own". -/
def discoverInput_claim (listing : List (List Char)) : List (List Char) :=
  listing.filter matchesAllowList

/-- A timed transcript segment, one element of the capability's
`result['segments']` list.  The script reads the keys `start`, `end`
and `text`; times (floats in the source) are modelled as exact
rationals. -/
structure Segment where
  start : ℚ
  end_ : ℚ
  text : List Char
deriving DecidableEq

/-- The dictionary returned by `model.transcribe`: per the external
interface, key `text` is always present while `language` and `segments`
may be absent (`result.get('language', 'Unknown')`,
`'segments' in result`). -/
structure TResult where
  text : List Char
  language : Option (List Char)
  segments : Option (List Segment)
deriving DecidableEq

/-- A Python exception value: message and runtime type name
(`type(e).__name__`). -/
structure PyErr where
  msg : List Char
  kind : List Char
deriving DecidableEq

/-- Embedding of Python's `f"{x:.2f}"` on an exact rational: round the
value times 100 to an integer, half-to-even (CPython's float formatting
rounding mode), entirely in integer arithmetic on `num`/`den`. -/
def roundHalfEven2 (q : ℚ) : ℤ :=
  let n : ℤ := 100 * q.num
  let d : ℤ := (q.den : ℤ)
  let f : ℤ := n.fdiv d
  let r : ℤ := n - f * d
  if 2 * r < d then f
  else if d < 2 * r then f + 1
  else if f % 2 = 0 then f else f + 1

/-- Fixed-point rendering with exactly two decimal places, as produced
by `f"{x:.2f}"`. -/
def format2f (q : ℚ) : List Char :=
  let h := roundHalfEven2 q
  let sign : List Char := if h < 0 then ['-'] else []
  let a := h.natAbs
  let r := a % 100
  sign ++ Nat.toDigits 10 (a / 100) ++ ['.'] ++
    (if r < 10 then '0' :: Nat.toDigits 10 r else Nat.toDigits 10 r)

/-- Decimal rendering of a natural number, as Python's `str`/f-string
interpolation produces. -/
def natChars (n : Nat) : List Char := Nat.toDigits 10 n

/-- Text written for one segment by the loop body of lines 116-120:
`f"\nSegment {i+1}:\n"`, then the start/end/text lines.  `i` is the
0-based `enumerate` index; the rendered ordinal is `i+1`. -/
def renderSegment (i : Nat) (seg : Segment) : List Char :=
  "\nSegment ".data ++ natChars (i + 1) ++ ":\n".data ++
  "  Start: ".data ++ format2f seg.start ++ "s\n".data ++
  "  End: ".data ++ format2f seg.end_ ++ "s\n".data ++
  "  Text: ".data ++ seg.text ++ "\n".data

/-- Text written by the `for i, segment in enumerate(result['segments'])`
loop, with `k` the `enumerate` counter for the first remaining
segment. -/
def renderSegsFrom (k : Nat) : List Segment → List Char
  | [] => []
  | seg :: rest => renderSegment k seg ++ renderSegsFrom (k + 1) rest

/-- The `"=" * 50` separator followed by the newline `f.write` appends
(line 108). -/
def eqLine : List Char := List.replicate 50 '=' ++ "\n".data

/-- Text written by lines 107-112, before the segments block: fixed
header, separator, audio path, the literal `Model: base`, language with
`'Unknown'` fallback, and the full text. -/
def reportMeta (audio_file : List Char) (result : TResult) : List Char :=
  "WHISPER TRANSCRIPTION RESULTS\n".data ++
  eqLine ++
  "Audio file: ".data ++ audio_file ++ "\n".data ++
  "Model: base\n".data ++
  "Language: ".data ++ result.language.getD "Unknown".data ++ "\n".data ++
  "Text: ".data ++ result.text ++ "\n".data

/-- Header line of the segments block (line 115). -/
def segHeaderLine : List Char := "\nDetailed segments:\n".data

/-- Complete content of the report file `whisper_transcript.txt` as a
function of the echoed audio path and the transcription result (lines
106-120): the metadata lines, then — only when the key `segments` is
present in the result dictionary — the `Detailed segments:` header and
one entry per segment. -/
def renderReport (audio_file : List Char) (result : TResult) : List Char :=
  reportMeta audio_file result ++
  (match result.segments with
   | none => []
   | some segs => segHeaderLine ++ renderSegsFrom 0 segs)

/-- One invocation of the speech-recognition capability: either
`model.transcribe(audio_path, language=language)` or the two-argument
form `model.transcribe(audio_path)` (auto-detect). -/
inductive CapCall where
  | withLang (audio_path : List Char) (language : List Char)
  | auto (audio_path : List Char)
deriving DecidableEq

/-- The audio path an invocation targets. -/
def CapCall.path : CapCall → List Char
  | .withLang p _ => p
  | .auto p => p

/-- Python truthiness of an optional string, as tested by
`if language:` on line 51: `None` and the empty string are falsy. -/
def pyTruthyStr : Option (List Char) → Bool
  | none => false
  | some s => !s.isEmpty

/-- Whether an `Except` value models a raised exception. -/
def isErr {α : Type} (x : Except PyErr α) : Bool :=
  match x with
  | .error _ => true
  | .ok _ => false

/-- Observable outcome of one `transcribe_audio` call: the returned
value (`None` on any caught exception), the capability invocations
performed, and the lines printed. -/
structure TranscribeOut where
  result : Option TResult
  calls : List CapCall
  messages : List (List Char)
deriving DecidableEq

/-- The two lines printed by the `except` handler (lines 59-60). -/
def errMessages (model_size : List Char) (e : PyErr) : List (List Char) :=
  ["Error with ".data ++ model_size ++ " model: ".data ++ e.msg,
   "Error type: ".data ++ e.kind]

/-- Embedding of `transcribe_audio` (lines 28-61).  Effects are passed
as oracles: `existsNow` is the value of `os.path.exists(audio_path)` at
line 42, `load` the outcome of `whisper.load_model(model_size)`, and
`cap` the behaviour of the loaded model's `transcribe` method.  The
whole body runs inside `try`: the explicit `FileNotFoundError` raised at
line 43, a model-load failure, or any capability error is caught by the
generic `except`, which prints the two error lines and returns `None`. -/
def transcribe_audio (audio_path : List Char) (model_size : List Char)
    (language : Option (List Char)) (existsNow : Bool)
    (load : Except PyErr Unit) (cap : CapCall → Except PyErr TResult) :
    TranscribeOut :=
  if existsNow = false then
    let e : PyErr := ⟨"Audio file not found: ".data ++ audio_path,
                      "FileNotFoundError".data⟩
    ⟨none, [], errMessages model_size e⟩
  else
    let m1 := "Loading Whisper model: ".data ++ model_size
    match load with
    | .error e => ⟨none, [], m1 :: errMessages model_size e⟩
    | .ok _ =>
      let m2 := "Transcribing: ".data ++ audio_path
      let call := if pyTruthyStr language then
                    CapCall.withLang audio_path (language.getD [])
                  else CapCall.auto audio_path
      match cap call with
      | .ok r => ⟨some r, [call], [m1, m2]⟩
      | .error e => ⟨none, [call], m1 :: m2 :: errMessages model_size e⟩

/-- Oracle inputs of one run of `main`: the result of `setup_ffmpeg()`,
the (fixed) directory listing each glob pattern scans, the value of
`os.path.exists` / success of `os.path.getsize` at lines 90-91, the
file size printed, the existence check inside `transcribe_audio`
(line 42), and the outcomes of model load and transcription. -/
structure RunInput where
  ffmpegOk : Bool
  listing : List (List Char)
  existsAtProbe : Bool
  fileSize : Nat
  existsAtTranscribe : Bool
  load : Except PyErr Unit
  capability : CapCall → Except PyErr TResult

/-- Observable outcome of one run of `main`: lines printed, the report
file written (name and content), the value of the `result` variable,
capability invocations, and any uncaught exception (`crashed`). -/
structure RunOutcome where
  messages : List (List Char)
  report : Option (List Char × List Char)
  result : Option TResult
  calls : List CapCall
  crashed : Option PyErr

/-- Python `repr` of a string, as interpolated for list elements
(quote escaping inside names is not modelled). -/
def pyStrRepr (s : List Char) : List Char :=
  Char.ofNat 39 :: s ++ [Char.ofNat 39]

/-- Python `repr` of a list of strings, as printed by line 80. -/
def pyListRepr (xs : List (List Char)) : List Char :=
  '[' :: List.intercalate ", ".data (xs.map pyStrRepr) ++ "]".data

/-- Lines printed by `main` between discovery and the transcription
call (lines 80-91), given the first discovered file.  The
`File size` line is only reached when `os.path.getsize` succeeds. -/
def preMessages (files : List (List Char)) (first : List Char)
    (existsAtProbe : Bool) : List (List Char) :=
  ["Found audio files: ".data ++ pyListRepr files,
   List.replicate 50 '=',
   "Testing Whisper BASE model".data,
   List.replicate 50 '=',
   "Using audio file: ".data ++ first,
   "File exists: ".data ++
     (if existsAtProbe then "True".data else "False".data)]

/-- Lines printed on the success path (lines 97-102 and 122). -/
def successMessages (r : TResult) : List (List Char) :=
  ['\n' :: List.replicate 50 '=',
   "TRANSCRIPTION SUCCESSFUL!".data,
   List.replicate 50 '=',
   "Text: ".data ++ r.text,
   "Language: ".data ++ r.language.getD "Unknown".data,
   "Segments: ".data ++ natChars (r.segments.getD []).length]

/-- Embedding of `main` (lines 63-124).  `setup_ffmpeg`'s filesystem
probing and `PATH` mutation are abstracted to the oracle `ffmpegOk`
(its `True`-path print about the added `PATH` entry is environment
glue and not modelled; the `False`-path message is).  Discovery uses
the fixed listing; if no candidate matches, the run ends cleanly.
Otherwise the first candidate is probed (lines 90-91): if it has
vanished, `os.path.getsize` raises `FileNotFoundError` *outside* any
`try`, which this model records as `crashed`.  Otherwise
`transcribe_audio` runs, and the report is written exactly on a
truthy (`some`) result. -/
def main (inp : RunInput) : RunOutcome :=
  if inp.ffmpegOk = false then
    { messages :=
        ["FFmpeg not found in project directory. Please install ffmpeg.".data],
      report := none, result := none, calls := [], crashed := none }
  else
    match audioFiles inp.listing with
    | [] =>
      { messages := ["No audio files found in current directory".data],
        report := none, result := none, calls := [], crashed := none }
    | first :: _ =>
      let files := audioFiles inp.listing
      let pre := preMessages files first inp.existsAtProbe
      if inp.existsAtProbe = false then
        { messages := pre,
          report := none, result := none, calls := [],
          crashed := some ⟨"No such file or directory: ".data ++ first,
                           "FileNotFoundError".data⟩ }
      else
        let sizeMsg := "File size: ".data ++ natChars inp.fileSize ++
                       " bytes".data
        let t := transcribe_audio first "base".data none
                   inp.existsAtTranscribe inp.load inp.capability
        match t.result with
        | some r =>
          { messages := pre ++ [sizeMsg] ++ t.messages ++
              successMessages r ++
              ['\n' :: ("Results saved to: whisper_transcript.txt".data)],
            report := some ("whisper_transcript.txt".data,
                            renderReport first r),
            result := some r, calls := t.calls, crashed := none }
        | none =>
          { messages := pre ++ [sizeMsg] ++ t.messages ++
              ["Transcription failed!".data],
            report := none, result := none, calls := t.calls,
            crashed := none }

/-! ### Substring machinery

Occurrence-in-order of a list of patterns in a text, with an executable
greedy checker and a soundness lemma connecting it to the existential
statement. -/

/-- The remainder of `s` after the first occurrence of `p`, or `none`
when `p` does not occur in `s`. -/
def dropAfter (p : List Char) : List Char → Option (List Char)
  | [] => if p.isEmpty then some [] else none
  | c :: t =>
    if p.isPrefixOf (c :: t) then some ((c :: t).drop p.length)
    else dropAfter p t

/-- Greedy check that the patterns `ps` occur in `s` in order, each
after the end of the previous one. -/
def containsSeq : List Char → List (List Char) → Bool
  | _, [] => true
  | s, p :: ps =>
    match dropAfter p s with
    | none => false
    | some r => containsSeq r ps

/-- The patterns `ps` occur in `s`, in order and without overlap. -/
def appearsInOrder : List Char → List (List Char) → Prop
  | _, [] => True
  | s, p :: ps => ∃ a b, s = a ++ p ++ b ∧ appearsInOrder b ps

/-- Decidable check that no nonempty proper prefix of the pattern `h`
is a suffix of the concrete literal `lit` (so no occurrence of `h` can
start inside `lit` and continue past its end). -/
def leftSpanFree (lit h : List Char) : Bool :=
  (List.range h.length).all fun i => i == 0 || !((h.take i).isSuffixOf lit)

/-- The bare segments-block header text, without the surrounding
newlines. -/
def segHeaderCore : List Char := "Detailed segments:".data

/-- The metadata text preceding the audio path, regrouped for boundary
analysis: header line, separator, `Audio file: ` label. -/
def metaLit1 : List Char :=
  "WHISPER TRANSCRIPTION RESULTS\n".data ++ eqLine ++ "Audio file: ".data

/-- The literal text between the audio path and the language value. -/
def metaLit2 : List Char :=
  "\n".data ++ "Model: base\n".data ++ "Language: ".data

/-- The literal text between the language value and the full text. -/
def metaLit3 : List Char := "\n".data ++ "Text: ".data

/-- A sample successful capability result used to instantiate
universally quantified theorems at concrete inputs. -/
def sampleResult : TResult := ⟨"hi".data, none, none⟩

/-- A capability oracle that always raises. -/
def capFail : CapCall → Except PyErr TResult :=
  fun _ => .error ⟨"boom".data, "RuntimeError".data⟩

/-- A capability oracle that always succeeds with `sampleResult`. -/
def capOk : CapCall → Except PyErr TResult := fun _ => .ok sampleResult

/-- A run whose transcription capability raises. -/
def inpFail : RunInput :=
  ⟨true, ["a.mp3".data], true, 4, true, .ok (), capFail⟩

/-- A fully successful run over a directory holding one `mp3` file. -/
def inpOk : RunInput :=
  ⟨true, ["a.mp3".data], true, 4, true, .ok (), capOk⟩

/-- A run in which the selected file vanishes between the directory
scan and the `os.path.getsize` probe of line 91. -/
def inpVanish : RunInput :=
  ⟨true, ["a.mp3".data], false, 4, true, .ok (), capOk⟩

/-- A run in which the selected file vanishes between the size probe
and the existence check inside `transcribe_audio` (line 42). -/
def inpVanishLate : RunInput :=
  ⟨true, ["a.mp3".data], true, 4, false, .ok (), capOk⟩

theorem dropAfter_sound (p : List Char) :
    ∀ s r, dropAfter p s = some r → ∃ a, s = a ++ p ++ r := by
  intro s
  induction s with
  | nil =>
    intro r h
    by_cases hp : p.isEmpty
    · refine ⟨[], ?_⟩
      simp only [dropAfter, hp, if_true, Option.some.injEq] at h
      simp [List.isEmpty_iff.mp hp, ← h]
    · simp [dropAfter, hp] at h
  | cons c t ih =>
    intro r h
    by_cases hp : p.isPrefixOf (c :: t)
    · simp only [dropAfter, hp, if_true, Option.some.injEq] at h
      obtain ⟨b, hb⟩ := List.isPrefixOf_iff_prefix.mp hp
      refine ⟨[], ?_⟩
      subst h
      rw [← hb]
      simp [List.nil_append, List.drop_left]
    · simp only [dropAfter, hp, if_false] at h
      obtain ⟨a, ha⟩ := ih r h
      exact ⟨c :: a, by simp [ha]⟩

theorem containsSeq_sound :
    ∀ ps s, containsSeq s ps = true → appearsInOrder s ps := by
  intro ps
  induction ps with
  | nil => intro s _; trivial
  | cons p ps ih =>
    intro s h
    cases hda : dropAfter p s with
    | none => simp [containsSeq, hda] at h
    | some r =>
      simp only [containsSeq, hda] at h
      obtain ⟨a, ha⟩ := dropAfter_sound p s r hda
      exact ⟨a, r, ha, ih r h⟩

theorem appearsInOrder_append_right :
    ∀ ps (b v : List Char), appearsInOrder b ps → appearsInOrder (b ++ v) ps := by
  intro ps
  induction ps with
  | nil => intro b v _; trivial
  | cons p ps ih =>
    rintro b v ⟨a, b', hb, h⟩
    exact ⟨a, b' ++ v, by simp [hb, List.append_assoc], ih b' v h⟩

theorem appearsInOrder_mono (s t : List Char) (ps : List (List Char))
    (hst : s <:+: t) (h : appearsInOrder s ps) : appearsInOrder t ps := by
  obtain ⟨u, v, huv⟩ := hst
  cases ps with
  | nil => trivial
  | cons p ps =>
    obtain ⟨a, b, hb, hrest⟩ := h
    refine ⟨u ++ a, b ++ v, ?_, appearsInOrder_append_right ps b v hrest⟩
    rw [← huv, hb]
    simp [List.append_assoc]

/-! ### Infix decomposition over appends

An occurrence of a pattern in `x ++ y` lies in `x`, lies in `y`, or
spans the boundary; the span case is excluded either by a newline guard
or by a decidable check on the concrete left literal. -/

theorem prefix_append_cases (h x y : List Char) (hp : h <+: x ++ y) :
    h <+: x ∨ ∃ h₂, h = x ++ h₂ ∧ h₂ <+: y := by
  rcases le_or_lt h.length x.length with hle | hlt
  · exact Or.inl (List.prefix_of_prefix_length_le hp (List.prefix_append x y) hle)
  · right
    have hx : x <+: h :=
      List.prefix_of_prefix_length_le (List.prefix_append x y) hp (Nat.le_of_lt hlt)
    obtain ⟨h₂, hh₂⟩ := hx
    refine ⟨h₂, hh₂.symm, ?_⟩
    obtain ⟨t, ht⟩ := hp
    rw [← hh₂, List.append_assoc] at ht
    exact ⟨t, List.append_cancel_left ht⟩

theorem infixAppendCases (h x y : List Char) (hin : h <:+: x ++ y) :
    h <:+: x ∨ h <:+: y ∨
      ∃ h₁ h₂, h = h₁ ++ h₂ ∧ h₁ ≠ [] ∧ h₂ ≠ [] ∧ h₁ <:+ x ∧ h₂ <+: y := by
  induction x with
  | nil =>
    simp only [List.nil_append] at hin
    exact Or.inr (Or.inl hin)
  | cons c x' ih =>
    rw [List.cons_append] at hin
    rcases List.infix_cons_iff.mp hin with hpre | htail
    · rw [← List.cons_append] at hpre
      rcases prefix_append_cases h (c :: x') y hpre with h1 | ⟨h₂, heq, hp2⟩
      · exact Or.inl h1.isInfix
      · cases hh₂ : h₂ with
        | nil =>
          subst hh₂
          rw [List.append_nil] at heq
          exact Or.inl (heq ▸ List.infix_rfl)
        | cons d t =>
          subst hh₂
          exact Or.inr (Or.inr ⟨c :: x', d :: t, heq, by simp, by simp,
            List.suffix_rfl, hp2⟩)
    · rcases ih htail with h1 | h2 | ⟨h₁, h₂, heq, hne1, hne2, hs, hp⟩
      · exact Or.inl (List.infix_cons h1)
      · exact Or.inr (Or.inl h2)
      · obtain ⟨u, hu⟩ := hs
        exact Or.inr (Or.inr ⟨h₁, h₂, heq, hne1, hne2, ⟨c :: u, by simp [hu]⟩, hp⟩)

theorem not_infix_append_nl (h x y : List Char) (hnl : '\n' ∉ h)
    (hx : ¬ h <:+: x) (hy : ¬ h <:+: y) (hy0 : y.head? = some '\n') :
    ¬ h <:+: x ++ y := by
  intro hin
  rcases infixAppendCases h x y hin with h1 | h2 | ⟨h₁, h₂, heq, _, hne2, _, hp⟩
  · exact hx h1
  · exact hy h2
  · cases hh₂ : h₂ with
    | nil => exact hne2 hh₂
    | cons d t =>
      subst hh₂
      obtain ⟨u, hu⟩ := hp
      rw [← hu] at hy0
      simp only [List.cons_append, List.head?_cons, Option.some.injEq] at hy0
      apply hnl
      rw [heq, ← hy0]
      simp

theorem not_infix_lit_append (lit v h : List Char) (hlit : ¬ h <:+: lit)
    (hv : ¬ h <:+: v) (hspan : leftSpanFree lit h = true) :
    ¬ h <:+: lit ++ v := by
  intro hin
  rcases infixAppendCases h lit v hin with h1 | h2 | ⟨h₁, h₂, heq, hne1, hne2, hs, _⟩
  · exact hlit h1
  · exact hv h2
  · have hi : h₁.length ∈ List.range h.length := by
      rw [List.mem_range, heq, List.length_append]
      have : 0 < h₂.length := List.length_pos.mpr hne2
      omega
    have := (List.all_eq_true.mp hspan) _ hi
    have hne0 : (h₁.length == 0) = false := by
      have : 0 < h₁.length := List.length_pos.mpr hne1
      simp only [beq_eq_false_iff_ne, ne_eq]
      omega
    rw [hne0, Bool.false_or, Bool.not_eq_eq_eq_not, Bool.not_true] at this
    have htake : h.take h₁.length = h₁ := by
      rw [heq]; exact List.take_left h₁ h₂
    rw [htake] at this
    exact absurd ( List.isSuffixOf_iff_suffix.mpr hs) (by simp [this])

theorem reportMeta_regroup (af : List Char) (res : TResult) :
    reportMeta af res =
      (metaLit1 ++ af) ++
        ((metaLit2 ++ res.language.getD "Unknown".data) ++
          (metaLit3 ++ (res.text ++ "\n".data))) := by
  simp [reportMeta, metaLit1, metaLit2, metaLit3, List.append_assoc]

theorem segHeaderCore_not_in_meta (af : List Char) (res : TResult)
    (h1 : ¬ segHeaderCore <:+: af) (h2 : ¬ segHeaderCore <:+: res.text)
    (h3 : ¬ segHeaderCore <:+: res.language.getD "Unknown".data) :
    ¬ segHeaderCore <:+: reportMeta af res := by
  rw [reportMeta_regroup]
  have hnl : '\n' ∉ segHeaderCore := by decide
  have hU3 : ¬ segHeaderCore <:+: metaLit3 ++ (res.text ++ "\n".data) := by
    refine not_infix_lit_append _ _ _ (by decide) ?_ (by decide)
    exact not_infix_append_nl _ _ _ hnl h2 (by decide) rfl
  have hU2 : ¬ segHeaderCore <:+:
      metaLit2 ++ res.language.getD "Unknown".data :=
    not_infix_lit_append _ _ _ (by decide) h3 (by decide)
  have hU1 : ¬ segHeaderCore <:+: metaLit1 ++ af :=
    not_infix_lit_append _ _ _ (by decide) h1 (by decide)
  have h23 : ¬ segHeaderCore <:+:
      (metaLit2 ++ res.language.getD "Unknown".data) ++
        (metaLit3 ++ (res.text ++ "\n".data)) :=
    not_infix_append_nl _ _ _ hnl hU2 hU3 rfl
  exact not_infix_append_nl _ _ _ hnl hU1 h23 rfl

theorem renderSegsFrom_get (segs : List Segment) :
    ∀ k i (h : i < segs.length),
      renderSegment (k + i) (segs.get ⟨i, h⟩) <:+: renderSegsFrom k segs := by
  induction segs with
  | nil => intro k i h; simp at h
  | cons s rest ih =>
    intro k i h
    cases i with
    | zero =>
      simp only [List.get, renderSegsFrom, Nat.add_zero]
      exact ( List.prefix_append _ _).isInfix
    | succ i' =>
      have hi' : i' < rest.length := Nat.lt_of_succ_lt_succ h
      have hrec := ih (k + 1) i' hi'
      have e : k + (i' + 1) = (k + 1) + i' := by omega
      simp only [List.get, renderSegsFrom, e]
      obtain ⟨u, v, huv⟩ := hrec
      exact ⟨renderSegment k s ++ u, v, by rw [← huv]; simp [List.append_assoc]⟩

/-- C7: every segment of the result is enumerated in the rendered
segments block — the entry written for the `i`-th segment (with 1-based
ordinal `i+1` and start/end formatted to exactly two decimal places)
occurs in the block; and for a result with the single segment
`{start = 0.0, end = 2.5, text = "hello"}` the rendered report contains
`Segment 1:`, `Start: 0.00s`, `End: 2.50s`, `Text: hello` in that
order. -/
theorem segments_enumeration :
    (∀ (segs : List Segment) (i : Nat) (h : i < segs.length),
        renderSegment i (segs.get ⟨i, h⟩) <:+: renderSegsFrom 0 segs)
    ∧ (∀ af text lang,
        appearsInOrder
          (renderReport af
            ⟨text, lang, some [⟨mkRat 0 1, mkRat 5 2, "hello".data⟩]⟩)
          ["Segment 1:".data, "Start: 0.00s".data, "End: 2.50s".data,
           "Text: hello".data]) := by
  constructor
  · intro segs i h
    have := renderSegsFrom_get segs 0 i h
    simpa using this
  · intro af text lang
    have hblock : appearsInOrder
        (renderSegsFrom 0 [⟨mkRat 0 1, mkRat 5 2, "hello".data⟩])
        ["Segment 1:".data, "Start: 0.00s".data, "End: 2.50s".data,
         "Text: hello".data] :=
      containsSeq_sound _ _ (by decide)
    refine appearsInOrder_mono _ _ _ ?_ hblock
    exact ⟨reportMeta af ⟨text, lang, some [⟨mkRat 0 1, mkRat 5 2, "hello".data⟩]⟩
             ++ segHeaderLine, [],
           by simp [renderReport, List.append_assoc]⟩

/-- Witness for `segments_enumeration`: the singleton segment list at
index 0. -/
theorem segments_enumeration_witness :
    renderSegment 0 (Segment.mk (mkRat 0 1) (mkRat 5 2) "hello".data) <:+:
      renderSegsFrom 0 [⟨mkRat 0 1, mkRat 5 2, "hello".data⟩] :=
  segments_enumeration.1 [⟨mkRat 0 1, mkRat 5 2, "hello".data⟩] 0
    (by decide)

/-- C6: `renderReport` is deterministic — two calls on identical
(request, result) pairs produce byte-identical report text. -/
theorem renderReport_deterministic (af₁ af₂ : List Char)
    (res₁ res₂ : TResult) (h1 : af₁ = af₂) (h2 : res₁ = res₂) :
    renderReport af₁ res₁ = renderReport af₂ res₂ := by
  rw [h1, h2]

/-- Witness for `renderReport_deterministic` at a concrete pair. -/
theorem renderReport_deterministic_witness :
    renderReport "a.mp3".data sampleResult =
      renderReport "a.mp3".data sampleResult :=
  renderReport_deterministic _ _ _ _ rfl rfl

/-- C8: a result whose `segments` key holds the empty list still
produces the `Detailed segments:` header line, and that line is the
final text of the report — nothing follows it. -/
theorem empty_segments_header (af : List Char) (res : TResult)
    (h : res.segments = some []) :
    segHeaderLine <:+ renderReport af res ∧
      segHeaderCore <:+: renderReport af res := by
  have hr : renderReport af res = reportMeta af res ++ segHeaderLine := by
    simp [renderReport, h, renderSegsFrom]
  constructor
  · rw [hr]; exact List.suffix_append _ _
  · rw [hr]
    have h1 : segHeaderCore <:+: segHeaderLine := by decide
    exact h1.trans ⟨reportMeta af res, [], by simp⟩

/-- Witness for `empty_segments_header` at a concrete result. -/
theorem empty_segments_header_witness :
    segHeaderLine <:+ renderReport "a.mp3".data ⟨"hi".data, none, some []⟩ ∧
      segHeaderCore <:+: renderReport "a.mp3".data ⟨"hi".data, none, some []⟩ :=
  empty_segments_header "a.mp3".data ⟨"hi".data, none, some []⟩ rfl

/-- C10: provided none of the interpolated values (audio path, full
text, language) happens to contain the header text itself, the rendered
report contains `Detailed segments:` exactly when the result's
`segments` key is present — an absent key omits the header entirely,
while a present (possibly empty) key produces it. -/
theorem header_iff_segments_present (af : List Char) (res : TResult)
    (h1 : ¬ segHeaderCore <:+: af) (h2 : ¬ segHeaderCore <:+: res.text)
    (h3 : ¬ segHeaderCore <:+: res.language.getD "Unknown".data) :
    segHeaderCore <:+: renderReport af res ↔ res.segments.isSome = true := by
  constructor
  · intro hin
    cases hseg : res.segments with
    | some segs => simp [hseg]
    | none =>
      exfalso
      have hr : renderReport af res = reportMeta af res := by
        simp [renderReport, hseg]
      rw [hr] at hin
      exact segHeaderCore_not_in_meta af res h1 h2 h3 hin
  · intro hsome
    cases hseg : res.segments with
    | none => rw [hseg] at hsome; simp at hsome
    | some segs =>
      have hr : renderReport af res =
          reportMeta af res ++ (segHeaderLine ++ renderSegsFrom 0 segs) := by
        simp [renderReport, hseg]
      rw [hr]
      have hcore : segHeaderCore <:+: segHeaderLine := by decide
      exact hcore.trans
        ⟨reportMeta af res, renderSegsFrom 0 segs, by simp [List.append_assoc]⟩

/-- Witness for `header_iff_segments_present` at a concrete result
carrying a present-but-empty `segments` key. -/
theorem header_iff_segments_present_witness :
    segHeaderCore <:+: renderReport "a.mp3".data ⟨"hi".data, none, some []⟩ ↔
      (TResult.mk "hi".data none (some [])).segments.isSome = true :=
  header_iff_segments_present "a.mp3".data ⟨"hi".data, none, some []⟩
    (by decide) (by decide) (by decide)

/-! ### Behaviour of `transcribe_audio` and `main` -/

theorem transcribe_not_exists (p ms : List Char) (lang : Option (List Char))
    (load : Except PyErr Unit) (cap : CapCall → Except PyErr TResult) :
    transcribe_audio p ms lang false load cap =
      ⟨none, [],
       errMessages ms ⟨"Audio file not found: ".data ++ p,
                       "FileNotFoundError".data⟩⟩ := rfl

theorem transcribe_calls_shape (p ms : List Char) (lang : Option (List Char))
    (ex : Bool) (load : Except PyErr Unit)
    (cap : CapCall → Except PyErr TResult) :
    (transcribe_audio p ms lang ex load cap).calls = [] ∨
      ∃ c, (transcribe_audio p ms lang ex load cap).calls = [c] ∧
        c.path = p := by
  by_cases hex : ex = false
  · exact Or.inl (by simp [transcribe_audio, hex])
  · cases hload : load with
    | error e => exact Or.inl (by simp [transcribe_audio, hex, hload])
    | ok u =>
      refine Or.inr ⟨if pyTruthyStr lang then CapCall.withLang p (lang.getD [])
        else CapCall.auto p, ?_, ?_⟩
      · cases hcap : cap (if pyTruthyStr lang then
            CapCall.withLang p (lang.getD []) else CapCall.auto p) with
        | ok r => simp [transcribe_audio, hex, hload, hcap]
        | error e => simp [transcribe_audio, hex, hload, hcap]
      · by_cases ht : pyTruthyStr lang <;> simp [ht, CapCall.path]

theorem transcribe_ok_calls (p ms : List Char) (lang : Option (List Char))
    (ex : Bool) (load : Except PyErr Unit)
    (cap : CapCall → Except PyErr TResult) (r : TResult)
    (hres : (transcribe_audio p ms lang ex load cap).result = some r) :
    ∀ c ∈ (transcribe_audio p ms lang ex load cap).calls,
      isErr (cap c) = false := by
  intro c hc
  by_cases hex : ex = false
  · simp [transcribe_audio, hex] at hres
  · cases hload : load with
    | error e => simp [transcribe_audio, hex, hload] at hres
    | ok u =>
      cases hcap : cap (if pyTruthyStr lang then
          CapCall.withLang p (lang.getD []) else CapCall.auto p) with
      | ok r' =>
        have hcall : c = (if pyTruthyStr lang then
            CapCall.withLang p (lang.getD []) else CapCall.auto p) := by
          simpa [transcribe_audio, hex, hload, hcap] using hc
        rw [hcall, hcap]
        rfl
      | error e => simp [transcribe_audio, hex, hload, hcap] at hres

theorem main_ffmpeg_fail (inp : RunInput) (h : inp.ffmpegOk = false) :
    main inp =
      ⟨["FFmpeg not found in project directory. Please install ffmpeg.".data],
       none, none, [], none⟩ := by
  simp [main, h]

theorem bool_true_of_not_false {b : Bool} (h : ¬ b = false) : b = true := by
  cases b <;> simp_all

/-- C1: a report file is written exactly when the transcription returned
a non-absent result; and whenever the capability was invoked and raised,
the run's result is absent, no report is written, and the
`Transcription failed!` line is printed. -/
theorem report_iff_success (inp : RunInput) :
    ((main inp).report.isSome ↔ (main inp).result.isSome) ∧
      (∀ c ∈ (main inp).calls, isErr (inp.capability c) = true →
        (main inp).result = none ∧ (main inp).report = none ∧
          "Transcription failed!".data ∈ (main inp).messages) := by
  by_cases hff : inp.ffmpegOk = false
  · simp [main, hff]
  · have hff' := bool_true_of_not_false hff
    cases hfiles : audioFiles inp.listing with
    | nil => simp [main, hff', hfiles]
    | cons first rest =>
      by_cases hprobe : inp.existsAtProbe = false
      · simp [main, hff', hfiles, hprobe]
      · have hprobe' := bool_true_of_not_false hprobe
        cases hres : (transcribe_audio first "base".data none
            inp.existsAtTranscribe inp.load inp.capability).result with
        | some r =>
          constructor
          · simp [main, hff', hfiles, hprobe', hres]
          · intro c hc herr
            exfalso
            have hok := transcribe_ok_calls first "base".data none
              inp.existsAtTranscribe inp.load inp.capability r hres c
              (by simpa [main, hff', hfiles, hprobe', hres] using hc)
            rw [hok] at herr
            exact Bool.false_ne_true herr
        | none =>
          constructor
          · simp [main, hff', hfiles, hprobe', hres]
          · intro c hc herr
            simp [main, hff', hfiles, hprobe', hres]

/-- Witness for `report_iff_success`: a run whose capability raises. -/
theorem report_iff_success_witness :
    (main inpFail).result = none ∧ (main inpFail).report = none ∧
      "Transcription failed!".data ∈ (main inpFail).messages :=
  (report_iff_success inpFail).2 (CapCall.auto "a.mp3".data) (by decide)
    (by decide)

/-- C4: a request whose audio path does not exist at the moment of
transcription returns `None` (with the `FileNotFoundError` message
lines, not a propagated exception), makes no capability call, and the
run writes no report. -/
theorem input_not_found :
    (∀ (p ms : List Char) (lang : Option (List Char))
        (load : Except PyErr Unit) (cap : CapCall → Except PyErr TResult),
      transcribe_audio p ms lang false load cap =
        ⟨none, [],
         errMessages ms ⟨"Audio file not found: ".data ++ p,
                         "FileNotFoundError".data⟩⟩) ∧
      (∀ inp : RunInput, inp.existsAtTranscribe = false →
        (main inp).report = none ∧ (main inp).result = none ∧
          (inp.existsAtProbe = true → (main inp).crashed = none)) := by
  refine ⟨fun p ms lang load cap => transcribe_not_exists p ms lang load cap,
    fun inp hex => ?_⟩
  by_cases hff : inp.ffmpegOk = false
  · simp [main, hff]
  · have hff' := bool_true_of_not_false hff
    cases hfiles : audioFiles inp.listing with
    | nil => simp [main, hff', hfiles]
    | cons first rest =>
      by_cases hprobe : inp.existsAtProbe = false
      · simp [main, hff', hfiles, hprobe]
      · have hprobe' := bool_true_of_not_false hprobe
        have hres : (transcribe_audio first "base".data none
            inp.existsAtTranscribe inp.load inp.capability).result = none := by
          rw [hex, transcribe_not_exists]
        simp [main, hff', hfiles, hprobe', hres]

/-- Witness for `input_not_found`: the file vanishes after the probe,
before the check inside `transcribe_audio`. -/
theorem input_not_found_witness :
    (main inpVanishLate).report = none ∧ (main inpVanishLate).result = none ∧
      (inpVanishLate.existsAtProbe = true →
        (main inpVanishLate).crashed = none) :=
  input_not_found.2 inpVanishLate rfl

/-- C9: when discovery yields at least one candidate, at most one
capability invocation happens per run and every invocation targets the
first discovered candidate. -/
theorem single_file_selected (inp : RunInput) (first : List Char)
    (rest : List (List Char)) (h : audioFiles inp.listing = first :: rest) :
    (main inp).calls.length ≤ 1 ∧
      ∀ c ∈ (main inp).calls, c.path = first := by
  by_cases hff : inp.ffmpegOk = false
  · simp [main, hff]
  · have hff' := bool_true_of_not_false hff
    by_cases hprobe : inp.existsAtProbe = false
    · simp [main, hff', h, hprobe]
    · have hprobe' := bool_true_of_not_false hprobe
      rcases transcribe_calls_shape first "base".data none
          inp.existsAtTranscribe inp.load inp.capability with hnil | ⟨c, hc, hp⟩
      · cases hres : (transcribe_audio first "base".data none
            inp.existsAtTranscribe inp.load inp.capability).result <;>
          simp [main, hff', h, hprobe', hres, hnil]
      · cases hres : (transcribe_audio first "base".data none
            inp.existsAtTranscribe inp.load inp.capability).result <;>
          simp [main, hff', h, hprobe', hres, hc, hp]

/-- Witness for `single_file_selected`: a successful singleton run. -/
theorem single_file_selected_witness :
    (main inpOk).calls.length ≤ 1 ∧
      ∀ c ∈ (main inpOk).calls, c.path = "a.mp3".data :=
  single_file_selected inpOk "a.mp3".data [] (by decide)

/-- C3 counterexample: the claim that no error ever propagates as a
process crash fails — when the selected file vanishes between the
directory scan and the `os.path.getsize` probe of line 91 (the
`InputNotFound` race condition the spec says is surfaced cleanly), the
`FileNotFoundError` is raised outside any `try` and the run crashes. -/
theorem run_crash_counterexample :
    (main inpVanish).crashed.isSome = true ∧
      (main inpVanish).report = none := by
  constructor <;> decide

/-- C3 as amended: provided the selected file still exists at the size
probe of line 91, no error propagates — the run never crashes, and each
error kind produces its operator-facing message: `DecoderUnavailable`
prints the ffmpeg instruction, `NoInputFound` prints the no-files
line, and a failed transcription (`InputNotFound` at the line-42 check
or `TranscriptionFailed` from the capability) prints
`Transcription failed!`. -/
theorem errors_handled (inp : RunInput) (hprobe : inp.existsAtProbe = true) :
    (main inp).crashed = none ∧
      (inp.ffmpegOk = false →
        "FFmpeg not found in project directory. Please install ffmpeg.".data ∈
          (main inp).messages) ∧
      (inp.ffmpegOk = true → audioFiles inp.listing = [] →
        "No audio files found in current directory".data ∈
          (main inp).messages) ∧
      (inp.ffmpegOk = true → (main inp).result = none →
        audioFiles inp.listing ≠ [] →
        "Transcription failed!".data ∈ (main inp).messages) := by
  by_cases hff : inp.ffmpegOk = false
  · simp [main, hff]
  · have hff' := bool_true_of_not_false hff
    cases hfiles : audioFiles inp.listing with
    | nil => simp [main, hff', hfiles]
    | cons first rest =>
      cases hres : (transcribe_audio first "base".data none
          inp.existsAtTranscribe inp.load inp.capability).result <;>
        simp [main, hff', hfiles, hprobe, hres]

/-- Witness for `errors_handled`: a run in which the file vanishes
after the probe, so transcription fails with the handled
`InputNotFound` path. -/
theorem errors_handled_witness :
    (main inpVanishLate).crashed = none ∧
      (inpVanishLate.ffmpegOk = false →
        "FFmpeg not found in project directory. Please install ffmpeg.".data ∈
          (main inpVanishLate).messages) ∧
      (inpVanishLate.ffmpegOk = true →
        audioFiles inpVanishLate.listing = [] →
        "No audio files found in current directory".data ∈
          (main inpVanishLate).messages) ∧
      (inpVanishLate.ffmpegOk = true →
        (main inpVanishLate).result = none →
        audioFiles inpVanishLate.listing ≠ [] →
        "Transcription failed!".data ∈ (main inpVanishLate).messages) :=
  errors_handled inpVanishLate rfl

/-- C5 counterexample: a present-but-empty language hint (`language=""`,
which the spec's data model admits as an "optional string") is treated
by `if language:` as falsy, so the capability is invoked on the
auto-detect path even though the hint is present — refuting "passes the
language hint exactly when the hint is present". -/
theorem language_hint_counterexample :
    (transcribe_audio "a.mp3".data "base".data (some []) true
        (.ok ()) capOk).calls = [CapCall.auto "a.mp3".data] ∧
      CapCall.auto "a.mp3".data ≠ CapCall.withLang "a.mp3".data [] := by
  constructor <;> decide

/-- C5 as amended: once transcription is reached, exactly one
capability call is made; it passes the language hint exactly when the
hint is present *and non-empty* (Python truthiness), and omits the
language parameter entirely (auto-detect path) exactly when the hint is
absent or empty — never a null-valued parameter. -/
theorem language_hint_two_path (p ms : List Char)
    (lang : Option (List Char)) (cap : CapCall → Except PyErr TResult) :
    (∀ l, (transcribe_audio p ms lang true (.ok ()) cap).calls =
        [CapCall.withLang p l] ↔ lang = some l ∧ l ≠ []) ∧
      ((transcribe_audio p ms lang true (.ok ()) cap).calls =
        [CapCall.auto p] ↔ lang = none ∨ lang = some []) := by
  have hcalls : (transcribe_audio p ms lang true (.ok ()) cap).calls =
      [if pyTruthyStr lang then CapCall.withLang p (lang.getD [])
       else CapCall.auto p] := by
    cases hcap : cap (if pyTruthyStr lang then
        CapCall.withLang p (lang.getD []) else CapCall.auto p) with
    | ok r => simp [transcribe_audio, hcap]
    | error e => simp [transcribe_audio, hcap]
  rw [hcalls]
  cases lang with
  | none => simp [pyTruthyStr]
  | some s =>
    cases s with
    | nil => simp [pyTruthyStr]
    | cons c t =>
      constructor
      · intro l
        simp only [pyTruthyStr, List.isEmpty_cons, Bool.not_false, if_true]
        constructor
        · intro h
          simp only [List.cons.injEq, and_true, CapCall.withLang.injEq] at h
          simp [← h.2]
        · rintro ⟨hl, _⟩
          simp only [Option.some.injEq] at hl
          simp [← hl]
      · simp [pyTruthyStr]

/-- Witness for `language_hint_two_path`: a concrete non-empty hint
forces the with-language call. -/
theorem language_hint_two_path_witness :
    (transcribe_audio "a.mp3".data "base".data (some "en".data) true
        (.ok ()) capOk).calls = [CapCall.withLang "a.mp3".data "en".data] :=
  ((language_hint_two_path "a.mp3".data "base".data (some "en".data)
    capOk).1 "en".data).mpr ⟨rfl, by decide⟩

/-! ### Discovery order: grouping by extension -/

theorem suffix_of_suffix_le (x y l : List Char) (hx : x <:+ l)
    (hy : y <:+ l) (h : x.length ≤ y.length) : x <:+ y := by
  obtain ⟨u, hu⟩ := hx
  obtain ⟨v, hv⟩ := hy
  have hlen : v.length ≤ u.length := by
    have h1 := congrArg List.length hu
    have h2 := congrArg List.length hv
    simp only [List.length_append] at h1 h2
    omega
  refine ⟨u.drop v.length, ?_⟩
  have e1 : (u ++ x).drop v.length = u.drop v.length ++ x := by
    rw [List.drop_append_eq_append_drop]
    have hz : v.length - u.length = 0 := by omega
    simp [hz]
  have e2 : (v ++ y).drop v.length = y := by simp [List.drop_left]
  rw [hu] at e1
  rw [hv] at e2
  exact (e2.symm.trans e1).symm

theorem extMatch_not_both (e₁ e₂ : List Char)
    (hne : ¬ e₁ <:+ e₂ ∧ ¬ e₂ <:+ e₁) (n : List Char) :
    ¬(extMatch e₁ n = true ∧ extMatch e₂ n = true) := by
  rintro ⟨h1, h2⟩
  simp only [extMatch, Bool.and_eq_true, decide_eq_true_eq] at h1 h2
  rcases le_total e₁.length e₂.length with hle | hle
  · exact hne.1 (suffix_of_suffix_le _ _ _ h1.1 h2.1 hle)
  · exact hne.2 (suffix_of_suffix_le _ _ _ h2.1 h1.1 hle)

theorem perm_filter_or (p q : List Char → Bool)
    (hpq : ∀ a, ¬(p a = true ∧ q a = true)) :
    ∀ l : List (List Char),
      List.Perm (l.filter p ++ l.filter q)
        (l.filter fun a => p a || q a)
  | [] => by simp
  | a :: t => by
    have ih := perm_filter_or p q hpq t
    cases hp : p a <;> cases hq : q a
    · simpa [List.filter_cons, hp, hq] using ih
    · simp only [List.filter_cons, hp, hq, if_false, if_true,
        Bool.false_or]
      exact List.Perm.trans List.perm_middle (ih.cons a)
    · simp only [List.filter_cons, hp, hq, if_true, if_false,
        Bool.true_or, List.cons_append]
      exact ih.cons a
    · exact absurd ⟨hp, hq⟩ (hpq a)

/-- The pairwise-disjointness relation on extension patterns: no name
matches both. -/
def ExtDisjoint (e₁ e₂ : List Char) : Prop :=
  ∀ n, ¬(extMatch e₁ n = true ∧ extMatch e₂ n = true)

theorem audio_extensions_pairwise :
    List.Pairwise ExtDisjoint audio_extensions := by
  simp only [audio_extensions]
  refine List.Pairwise.cons ?_ (List.Pairwise.cons ?_ (List.Pairwise.cons ?_
    (List.Pairwise.cons ?_ (List.Pairwise.cons ?_ List.Pairwise.nil))))
  · intro b hb
    simp only [List.mem_cons, List.not_mem_nil, or_false] at hb
    rcases hb with rfl | rfl | rfl | rfl <;>
      exact extMatch_not_both _ _ ⟨by decide, by decide⟩
  · intro b hb
    simp only [List.mem_cons, List.not_mem_nil, or_false] at hb
    rcases hb with rfl | rfl | rfl <;>
      exact extMatch_not_both _ _ ⟨by decide, by decide⟩
  · intro b hb
    simp only [List.mem_cons, List.not_mem_nil, or_false] at hb
    rcases hb with rfl | rfl <;>
      exact extMatch_not_both _ _ ⟨by decide, by decide⟩
  · intro b hb
    simp only [List.mem_cons, List.not_mem_nil, or_false] at hb
    rcases hb with rfl
    exact extMatch_not_both _ _ ⟨by decide, by decide⟩
  · intro b hb
    exact absurd hb (List.not_mem_nil b)

theorem flat_filter_perm (l : List (List Char)) :
    ∀ exts : List (List Char), List.Pairwise ExtDisjoint exts →
      List.Perm ((exts.map fun ext => l.filter (extMatch ext)).flatten)
        (l.filter fun n => exts.any fun e => extMatch e n)
  | [], _ => by simp
  | e :: es, hp => by
    obtain ⟨hhead, htail⟩ := List.pairwise_cons.mp hp
    have ih := flat_filter_perm l es htail
    have hdisj : ∀ n,
        ¬(extMatch e n = true ∧ (es.any fun x => extMatch x n) = true) := by
      rintro n ⟨h1, h2⟩
      obtain ⟨b, hb, hbn⟩ := List.any_eq_true.mp h2
      exact hhead b hb n ⟨h1, hbn⟩
    simp only [List.map_cons, List.flatten_cons]
    refine List.Perm.trans (List.Perm.append_left _ ih) ?_
    refine List.Perm.trans (perm_filter_or _ _ hdisj l) ?_
    have hcongr : ∀ n ∈ l,
        (extMatch e n || es.any fun x => extMatch x n) =
          ((e :: es).any fun x => extMatch x n) := by
      intro n _
      simp [List.any_cons]
    rw [ List.filter_congr hcongr]

theorem filter_flatten_of_pairwise (l : List (List Char)) :
    ∀ exts : List (List Char), List.Pairwise ExtDisjoint exts →
      ∀ ext ∈ exts,
        ((exts.map fun e => l.filter (extMatch e)).flatten).filter
            (extMatch ext) = l.filter (extMatch ext)
  | [], _, ext, hmem => by simp at hmem
  | e :: es, hp, ext, hmem => by
    obtain ⟨hhead, htail⟩ := List.pairwise_cons.mp hp
    simp only [List.map_cons, List.flatten_cons, List.filter_append]
    rcases List.mem_cons.mp hmem with rfl | hmem'
    · have hself : (l.filter (extMatch ext)).filter (extMatch ext) =
          l.filter (extMatch ext) := by
        simp [List.filter_filter]
      have hrest : ((es.map fun e => l.filter (extMatch e)).flatten).filter
          (extMatch ext) = [] := by
        apply List.filter_eq_nil_iff.mpr
        intro a ha
        obtain ⟨piece, hpiece, hapiece⟩ := List.mem_flatten.mp ha
        obtain ⟨e', he', rfl⟩ := List.mem_map.mp hpiece
        have hae' : extMatch e' a = true := List.of_mem_filter hapiece
        intro hax
        exact hhead e' he' a ⟨hax, hae'⟩
      rw [hself, hrest, List.append_nil]
    · have hfirst : (l.filter (extMatch e)).filter (extMatch ext) = [] := by
        apply List.filter_eq_nil_iff.mpr
        intro a ha
        have hae : extMatch e a = true := List.of_mem_filter ha
        intro hax
        exact hhead ext hmem' a ⟨hae, hax⟩
      rw [hfirst, List.nil_append]
      exact filter_flatten_of_pairwise l es htail ext hmem'

/-- C2 counterexample: for the enumeration order `[b.wav, a.mp3]` the
code returns `[a.mp3, b.wav]` — the per-extension glob loop regroups
the candidates, so discovery does *not* return them in the filesystem
collaborator's enumeration order. -/
theorem discover_order_counterexample :
    audioFiles ["b.wav".data, "a.mp3".data] ≠
      discoverInput_claim ["b.wav".data, "a.mp3".data] := by
  decide

/-- C2 as amended: discovery scans the single fixed listing against the
case-sensitive allow-list and returns exactly the matching candidates
(as a multiset, a permutation of the enumeration-order filter), but
grouped by extension in allow-list order; within each extension group
the filesystem enumeration order is preserved. -/
theorem discover_grouped (listing : List (List Char)) :
    List.Perm (audioFiles listing) (discoverInput_claim listing) ∧
      ∀ ext ∈ audio_extensions,
        (audioFiles listing).filter (extMatch ext) =
          listing.filter (extMatch ext) := by
  constructor
  · have hperm := flat_filter_perm listing audio_extensions
      audio_extensions_pairwise
    have heq : discoverInput_claim listing =
        listing.filter fun n => audio_extensions.any fun e => extMatch e n := by
      apply List.filter_congr
      intro a _
      simp [matchesAllowList]
    rw [heq]
    exact hperm
  · intro ext hext
    exact filter_flatten_of_pairwise listing audio_extensions
      audio_extensions_pairwise ext hext

/-- Witness for `discover_grouped`: the `.mp3` group of the
counterexample listing is preserved in enumeration order. -/
theorem discover_grouped_witness :
    (audioFiles ["b.wav".data, "a.mp3".data]).filter
        (extMatch ".mp3".data) =
      (["b.wav".data, "a.mp3".data] : List (List Char)).filter
        (extMatch ".mp3".data) :=
  (discover_grouped ["b.wav".data, "a.mp3".data]).2 ".mp3".data (by decide)

end TranscribeAudio
